import Mathlib

/-! # Verification of the dependency-extraction and report-aggregation core

Shallow embedding of `repo_health/check_dependencies.py` and
`repo_health_dashboard/utils/utils.py`.

Modelling conventions:
* A file is identified by its path string; a requirements file is a path
  together with its list of lines.  The line accessor `get_file_lines` is not
  part of the sources; per the specification (§6) it returns the file's
  sequence of text lines, so readers here take those lines directly.
* Python's `list(set(xs))` is modelled as `xs.dedup` (set iteration order is
  arbitrary in Python; every property proved below is insensitive to the
  order chosen).
* `json.dumps` of a list of identifier strings is modelled as the list
  itself; `json.dumps` of a dict is modelled by the dict's key list where
  only identifiers matter.
* Parsed JSON objects (Python dicts) are association lists `List (String × β)`;
  a parsed dict has pairwise-distinct keys, which appears as a `Nodup`
  hypothesis where a property depends on it.
-/

/-! ## String helpers (Python `str.startswith`, `str.endswith`, `in`) -/

def strStarts (s p : String) : Bool := p.data.isPrefixOf s.data

def strEnds (s p : String) : Bool := p.data.isSuffixOf s.data

def strContains (s p : String) : Bool := decide (p.data <:+: s.data)

/-- Python `re.sub(r' +#.*', "", line)`: delete everything from the leftmost
occurrence of one-or-more spaces followed by `#` to the end of the line. -/
def stripInlineComment : List Char → List Char
  | [] => []
  | c :: rest =>
    if c = ' ' ∧ (rest.dropWhile (fun x => x = ' ')).head? = some '#'
    then []
    else c :: stripInlineComment rest

/-- Python `line.replace('-e ', "")`: delete every (non-overlapping, left-to-right)
occurrence of the editable-install marker. -/
def stripEditable : List Char → List Char
  | '-' :: 'e' :: ' ' :: rest => stripEditable rest
  | c :: rest => c :: stripEditable rest
  | [] => []

/-- One line of `re.sub(r' +#.*', "", line).replace('-e ', "")`. -/
def stripLine (l : String) : String := ⟨stripEditable (stripInlineComment l.data)⟩

/-! ## Python dependency reader (`PythonDependencyReader._read_dependencies`) -/

/-- A `*.txt` file found by `rglob` under `requirements/`: its path (as a
string, the way the source compares it with `str.endswith`) and its lines. -/
structure ReqFile where
  path : String
  lines : List String
deriving DecidableEq

/-- One `{count, list}` sub-group of the emitted dependency summary. -/
structure SubGroup where
  count : Nat
  list : List String
deriving DecidableEq

/-- The comprehension `[re.sub(...).replace(...) for line in lines if line and not line.startswith("#")]`. -/
def strippedLines (lines : List String) : List String :=
  (lines.filter (fun l => !(l == "") && !(strStarts l "#"))).map stripLine

/-- The test `re.match(r'^git\+.*', line)`. -/
def isGitLine (l : String) : Bool := strStarts l "git+"

/-- The test `"==" in line`. -/
def isPinned (l : String) : Bool := strContains l "=="

/-- The main loop over requirement files: extends the running
`github_packages` accumulator with each file's `git+` lines, then extends
`pypi_packages` with the file's pinned lines not present in the accumulator
at that moment.  Returns the final `(github_packages, pypi_packages)`. -/
def harvest : List String → List ReqFile → List String × List String
  | gAcc, [] => (gAcc, [])
  | gAcc, f :: rest =>
    let s := strippedLines f.lines
    let gAcc2 := gAcc ++ s.filter isGitLine
    let p := s.filter (fun l => decide (l ∉ gAcc2) && isPinned l)
    let out := harvest gAcc2 rest
    (out.1, p ++ out.2)

/-- The tuple `("constraints.txt", "pins.txt",)`. -/
def constraintsNames : List String := ["constraints.txt", "pins.txt"]

/-- The filter `[file for file in files if not file.endswith(constraints_files)]`. -/
def requirementFiles (fs : List ReqFile) : List ReqFile :=
  fs.filter (fun f => !(constraintsNames.any (fun c => strEnds f.path c)))

def githubPackages (fs : List ReqFile) : List String :=
  (harvest [] (requirementFiles fs)).1

def pypiPackages (fs : List ReqFile) : List String :=
  (harvest [] (requirementFiles fs)).2

/-- The source's `priority_list = ["production.txt", "base.txt", "development.txt", "dev.txt"]`. -/
def priority_list : List String := ["production.txt", "base.txt", "development.txt", "dev.txt"]

/-- The `for file_name in priority_list: ... break` loop: the selected
production files are all files whose path ends with the first priority name
for which at least one such file exists; none when no name matches. -/
def productionFiles (fs : List ReqFile) : List ReqFile :=
  match priority_list.find? (fun n => fs.any (fun f => strEnds f.path n)) with
  | some n => fs.filter (fun f => strEnds f.path n)
  | none => []

/-- Source method `PythonDependencyReader.cleanup_lines`, returning `(github, pypi)`. -/
def cleanup_lines (lines : List String) : List String × List String :=
  let s := strippedLines lines
  let g := s.filter isGitLine
  (g, s.filter (fun l => decide (l ∉ g) && isPinned l))

/-- Accumulated `production_packages` over the selected production files. -/
def productionPackages (fs : List ReqFile) : List String :=
  (productionFiles fs).flatMap (fun f => (cleanup_lines f.lines).2)

/-- The dict returned by `PythonDependencyReader._read_dependencies`. -/
structure PySummary where
  github : SubGroup
  pypi_all : SubGroup
  pypi : SubGroup
  count : Nat
deriving DecidableEq

/-- Source method `PythonDependencyReader._read_dependencies`, as a function of the
`*.txt` files found under `requirements/`. -/
def pythonRead (fs : List ReqFile) : PySummary :=
  let github_packages := githubPackages fs
  let pypi_packages := pypiPackages fs
  let production_packages := productionPackages fs
  let github_dependencies := github_packages.dedup
  let pypi_dependencies := pypi_packages.dedup
  let production_dedup := production_packages.dedup
  { github := { count := github_dependencies.dedup.length, list := github_packages }
    pypi_all := { count := pypi_dependencies.dedup.length, list := pypi_dependencies }
    pypi := { count := production_dedup.dedup.length, list := production_dedup }
    count := pypi_dependencies.dedup.length + github_dependencies.dedup.length }

example : pythonRead [⟨"requirements/base.txt", ["django==2.2", "# c", "", "six==1.0", "django==2.2"]⟩]
    = { github := ⟨0, []⟩, pypi_all := ⟨2, ["six==1.0", "django==2.2"]⟩,
        pypi := ⟨2, ["six==1.0", "django==2.2"]⟩, count := 2 } := by decide

example : (pythonRead [⟨"requirements/rebase.txt", ["pkg==1.0"]⟩]).pypi.count = 1 := by decide

example : (pythonRead [⟨"requirements/base.txt", ["git+a", "git+a"]⟩]).github.list
    = ["git+a", "git+a"] := by decide

example : (pythonRead [⟨"requirements/base.txt", ["\t# foo==1.0"]⟩]).pypi_all.list
    = ["\t# foo==1.0"] := by decide

example : (pythonRead [⟨"requirements/base.txt", ["x  # tail comment", "-e git+u"]⟩]).github.list
    = ["git+u"] := by decide

/-! ## JavaScript dependency reader (`JavascriptDependencyReader._read_dependencies`) -/

/-- The parsed `package.json`: its `dependencies` and `devDependencies`
objects, as association lists (parsed dicts have pairwise-distinct keys). -/
structure PackageJson where
  dependencies : List (String × String)
  devDependencies : List (String × String)
deriving DecidableEq

/-- The dict returned by `JavascriptDependencyReader._read_dependencies`. -/
structure JsSummary where
  count : Nat
  js : SubGroup
  jsDev : SubGroup
  jsAll : SubGroup
deriving DecidableEq

/-- Source method `JavascriptDependencyReader._read_dependencies`.  Here `lock` is the
`dependencies` object of `package-lock.json` (`none` when the lockfile is
absent or empty, in which case `js_dependencies_all` stays empty).  The
`for dependency, details in ...items(): js_dependencies_all[dependency] = ...`
loop copies a parsed dict key-for-key, so it is the identity on the
association list; the serialized dict lists are modelled by their key lists. -/
def jsRead (pj : PackageJson) (lock : Option (List (String × String))) : JsSummary :=
  let jsDeps := pj.dependencies
  let jsDev := pj.devDependencies
  let allDeps := match lock with
    | none => []
    | some d => d
  { count := jsDeps.length + jsDev.length
    js := { count := jsDeps.length, list := jsDeps.map Prod.fst }
    jsDev := { count := jsDev.length, list := jsDev.map Prod.fst }
    jsAll := { count := allDeps.length, list := allDeps.map Prod.fst } }

/-! ## Dependency aggregator (`get_dependencies`) -/

/-- A value of one of the reader/aggregator result dicts: either the total
`count` or a `{count, list}` sub-group. -/
inductive Val where
  | num : Nat → Val
  | sub : SubGroup → Val
deriving DecidableEq

/-- Python dict assignment `d[k] = v`: replace in place when the key exists,
else append. -/
def dInsert {β : Type} (d : List (String × β)) (k : String) (v : β) : List (String × β) :=
  if d.any (fun p => p.1 == k) then d.map (fun p => if p.1 == k then (k, v) else p)
  else d ++ [(k, v)]

/-- Python `d.update(u)`: assign every pair of `u` into `d` in order. -/
def dUpdate {β : Type} (d u : List (String × β)) : List (String × β) :=
  u.foldl (fun acc p => dInsert acc p.1 p.2) d

/-- The module-level `default_output` schema of `check_dependencies.py`. -/
def default_output : List (String × Val) :=
  [("count", .num 0), ("github", .sub ⟨0, []⟩), ("pypi_all", .sub ⟨0, []⟩),
   ("pypi", .sub ⟨0, []⟩), ("js", .sub ⟨0, []⟩), ("js.dev", .sub ⟨0, []⟩),
   ("js.all", .sub ⟨0, []⟩)]

/-- The dict literal returned by the JavaScript reader, in source order. -/
def jsReadDict (pj : PackageJson) (lock : Option (List (String × String))) :
    List (String × Val) :=
  let s := jsRead pj lock
  [("count", .num s.count), ("js", .sub s.js), ("js.dev", .sub s.jsDev),
   ("js.all", .sub s.jsAll)]

/-- The dict literal returned by the Python reader, in source order. -/
def pythonReadDict (fs : List ReqFile) : List (String × Val) :=
  let s := pythonRead fs
  [("github", .sub s.github), ("pypi_all", .sub s.pypi_all),
   ("pypi", .sub s.pypi), ("count", .num s.count)]

/-- The lookup `result.get('count', 0)`. -/
def getCount (res : List (String × Val)) : Nat :=
  match res.lookup "count" with
  | some (.num n) => n
  | _ => 0

/-- One iteration of the reader loop in `get_dependencies`: skip an empty
result, otherwise add its `count` to the running total, merge its keys into
the running output, and overwrite the output's `count` with the total. -/
def applyReader (st : List (String × Val) × Nat) (res : List (String × Val)) :
    List (String × Val) × Nat :=
  if res.isEmpty then st
  else
    let c := st.2 + getCount res
    (dInsert (dUpdate st.1 res) "count" (.num c), c)

/-- A repository as the readers see it: the `*.txt` files under
`requirements/` when that directory exists, the parsed `package.json` when
that file exists, and the `dependencies` object of a non-empty
`package-lock.json` when present. -/
structure Repo where
  requirements : Option (List ReqFile)
  packageJson : Option PackageJson
  packageLock : Option (List (String × String))

/-- Source method `JavascriptDependencyReader.read`: `{}` when `package.json` is absent. -/
def jsReaderResult (r : Repo) : List (String × Val) :=
  match r.packageJson with
  | none => []
  | some pj => jsReadDict pj r.packageLock

/-- Source method `PythonDependencyReader.read`: `{}` when `requirements/` is absent. -/
def pyReaderResult (r : Repo) : List (String × Val) :=
  match r.requirements with
  | none => []
  | some fs => pythonReadDict fs

/-- Source function `get_dependencies`: start from a deep copy of `default_output`, run the
two registered readers (JavaScript, then Python, in definition order). -/
def get_dependencies (r : Repo) : List (String × Val) :=
  (applyReader (applyReader (default_output, 0) (jsReaderResult r)) (pyReaderResult r)).1

example : get_dependencies ⟨none, none, some [("x", "1")]⟩ = default_output := by decide

example : (get_dependencies ⟨some [⟨"requirements/base.txt", ["a==1"]⟩],
    some ⟨[("p", "^1")], [("q", "^2")]⟩, none⟩).lookup "count" = some (.num 3) := by decide

/-! ## Dashboard utilities (`repo_health_dashboard/utils/utils.py`) -/

/-- A JSON-like nested result value: the metadata dicts the dashboard
squashes and standardizes.  `null` is Python's `None` placeholder. -/
inductive JVal where
  | null : JVal
  | str : String → JVal
  | num : Int → JVal
  | arr : List JVal → JVal
  | obj : List (String × JVal) → JVal

mutual

/-- The pairs produced by the `squash_dict` loop, in production order, before
Python's dict construction collapses duplicate keys.  Note that the recursive
call in the source is `squash_dict(value)` — the *default* delimiter `"."` —
so only the top level uses the passed delimiter. -/
def squashPairs : List (String × JVal) → String → List (String × JVal)
  | [], _ => []
  | (k, v) :: rest, d => squashEntry k v d ++ squashPairs rest d

/-- One `key, value` iteration of `squash_dict`: descend when the value is a
dict (`isinstance(value, dict)`), otherwise keep the pair as a leaf. -/
def squashEntry : String → JVal → String → List (String × JVal)
  | k, JVal.obj m, d => (squashPairs m ".").map (fun q => (k ++ d ++ q.1, q.2))
  | k, v, _ => [(k, v)]

end

/-- Building a Python dict from a pair sequence: repeated assignment, so the
first occurrence of a key fixes its position and the last fixes its value. -/
def dictNorm {β : Type} (l : List (String × β)) : List (String × β) :=
  dUpdate [] l

/-- Source function `squash_dict(input, delimiter)`. -/
def squash_dict (input : List (String × JVal)) (delimiter : String) :
    List (String × JVal) :=
  dictNorm (squashPairs input delimiter)

/-- Source function `get_superset_of_keys(dicts)` (a Python set, modelled as a
deduplicated list). -/
def get_superset_of_keys (ds : List (String × List (String × JVal))) : List String :=
  (ds.flatMap (fun p => p.2.map Prod.fst)).dedup

/-- Source function `standardize_metadata_by_repo(metadata_by_repo)`. -/
def standardize_metadata_by_repo (m : List (String × List (String × JVal))) :
    List (String × List (String × JVal)) :=
  let defaults := (get_superset_of_keys m).map (fun k => (k, JVal.null))
  m.map (fun p => (p.1, dUpdate defaults p.2))

/-- The configuration consumed by `write_squashed_metadata_to_csv`. -/
structure Configuration where
  check_order : List String
  key_aliases : List (String × String)

/-- The column order computed by `write_squashed_metadata_to_csv`:
`check_order` literally, then the remaining superset keys sorted. -/
def write_columns (metadata : List (String × List (String × JVal)))
    (cfg : Configuration) : List String :=
  let sk := get_superset_of_keys metadata
  let remaining := sk.filter (fun k => decide (k ∉ cfg.check_order))
  cfg.check_order ++ List.insertionSort (fun a b => a ≤ b) remaining

/-- The comprehension `[item[k] for k in sorted_keys]`: `none` models the `KeyError` raised
when a column key is absent from the repository's mapping. -/
def buildRow : List String → List (String × JVal) → Option (List JVal)
  | [], _ => some []
  | k :: rest, item =>
    (item.lookup k).bind (fun v => (buildRow rest item).map (fun r => v :: r))

/-- The body loop of `write_squashed_metadata_to_csv` over a fixed resolved
column order: one row per repository in input order. -/
def writeRowsAux (cols : List String) :
    List (String × List (String × JVal)) → Option (List (String × List JVal))
  | [] => some []
  | p :: rest =>
    (buildRow cols p.2).bind (fun r =>
      (writeRowsAux cols rest).map (fun rs => (p.1, r) :: rs))

/-- The body of `write_squashed_metadata_to_csv`: resolve the column order
once, then write one row per repository; `none` models the `KeyError`. -/
def write_rows (metadata : List (String × List (String × JVal)))
    (cfg : Configuration) : Option (List (String × List JVal)) :=
  writeRowsAux (write_columns metadata cfg) metadata

/-! ## General list lemmas -/

theorem dedup_length_le_of_subset {α : Type} [DecidableEq α] {l1 l2 : List α}
    (h : l1 ⊆ l2) : l1.dedup.length ≤ l2.dedup.length := by
  rw [← List.card_toFinset, ← List.card_toFinset]
  refine Finset.card_le_card (fun x hx => ?_)
  rw [List.mem_toFinset] at hx ⊢
  exact h hx

theorem suffix_of_suffix_of_length_le {α : Type} {p q s : List α}
    (hp : p <:+ s) (hq : q <:+ s) (hlen : p.length ≤ q.length) : p <:+ q := by
  obtain ⟨t1, ht1⟩ := hp
  obtain ⟨t2, ht2⟩ := hq
  have hs1 : s.drop t1.length = p := by rw [← ht1, List.drop_left]
  have hs2 : s.drop t2.length = q := by rw [← ht2, List.drop_left]
  have hlen1 : t1.length + p.length = s.length := by
    rw [← ht1, List.length_append]
  have hlen2 : t2.length + q.length = s.length := by
    rw [← ht2, List.length_append]
  rw [← hs1, ← hs2]
  exact List.drop_suffix_drop_left s (by omega)

theorem strEnds_iff {s p : String} : strEnds s p = true ↔ p.data <:+ s.data := by
  simp [strEnds]

/-! ## Lemmas on the Python reader -/

/-- No path can end both with a priority-list name and with a
constraints-file name: none of these names is a suffix of another. -/
theorem priority_not_constraints {pth : String} {n : String}
    (hn : n ∈ priority_list) (h : strEnds pth n = true) :
    (constraintsNames.any (fun c => strEnds pth c)) = false := by
  have hsuf : n.data <:+ pth.data := strEnds_iff.mp h
  simp only [constraintsNames, List.any_cons, List.any_nil, Bool.or_false,
    Bool.or_eq_false_iff]
  simp only [priority_list, List.mem_cons, List.not_mem_nil, or_false] at hn
  constructor
  · rw [Bool.eq_false_iff]
    intro hc
    have hcs : ("constraints.txt" : String).data <:+ pth.data := strEnds_iff.mp hc
    rcases hn with h1 | h1 | h1 | h1 <;> subst h1
    · exact absurd (suffix_of_suffix_of_length_le hsuf hcs (by decide)) (by decide)
    · exact absurd (suffix_of_suffix_of_length_le hsuf hcs (by decide)) (by decide)
    · exact absurd (suffix_of_suffix_of_length_le hsuf hcs (by decide)) (by decide)
    · exact absurd (suffix_of_suffix_of_length_le hsuf hcs (by decide)) (by decide)
  · rw [Bool.eq_false_iff]
    intro hc
    have hcs : ("pins.txt" : String).data <:+ pth.data := strEnds_iff.mp hc
    rcases hn with h1 | h1 | h1 | h1 <;> subst h1
    · exact absurd (suffix_of_suffix_of_length_le hcs hsuf (by decide)) (by decide)
    · exact absurd (suffix_of_suffix_of_length_le hcs hsuf (by decide)) (by decide)
    · exact absurd (suffix_of_suffix_of_length_le hcs hsuf (by decide)) (by decide)
    · exact absurd (suffix_of_suffix_of_length_le hsuf hcs (by decide)) (by decide)

/-- Every file selected for the production subset survives the
constraints-file exclusion applied to the all-packages scan. -/
theorem productionFiles_subset_requirementFiles (fs : List ReqFile) :
    productionFiles fs ⊆ requirementFiles fs := by
  unfold productionFiles
  cases hfind : priority_list.find? (fun n => fs.any (fun f => strEnds f.path n)) with
  | none => intro f hf; simp at hf
  | some n =>
    intro f hf
    rw [List.mem_filter] at hf
    rw [requirementFiles, List.mem_filter]
    refine ⟨hf.1, ?_⟩
    rw [priority_not_constraints (List.mem_of_find?_eq_some hfind) hf.2]
    rfl

/-- Every member of the running `github_packages` accumulator is a `git+`
line, provided the initial accumulator only holds `git+` lines. -/
theorem harvest_github_git : ∀ (files : List ReqFile) (gAcc : List String),
    (∀ y ∈ gAcc, isGitLine y = true) →
    ∀ y ∈ (harvest gAcc files).1, isGitLine y = true := by
  intro files
  induction files with
  | nil => intro gAcc h y hy; exact h y hy
  | cons f rest ih =>
    intro gAcc h y hy
    refine ih _ (fun z hz => ?_) y hy
    rcases List.mem_append.mp hz with hz | hz
    · exact h z hz
    · exact (List.mem_filter.mp hz).2

/-- A line classified as pypi by `cleanup_lines` for a file in the scan list
is also collected by the main `pypi_packages` accumulation. -/
theorem mem_harvest_pypi : ∀ (files : List ReqFile) (gAcc : List String)
    (f : ReqFile) (x : String), f ∈ files →
    (∀ y ∈ gAcc, isGitLine y = true) →
    x ∈ (cleanup_lines f.lines).2 → x ∈ (harvest gAcc files).2 := by
  intro files
  induction files with
  | nil => intro gAcc f x hf; exact absurd hf (List.not_mem_nil f)
  | cons f0 rest ih =>
    intro gAcc f x hf hacc hx
    show x ∈ _ ++ _
    rw [List.mem_append]
    rcases List.mem_cons.mp hf with rfl | hf
    · left
      have hx' := List.mem_filter.mp hx
      obtain ⟨hxs, hcond⟩ := hx'
      rw [Bool.and_eq_true, decide_eq_true_iff] at hcond
      obtain ⟨hnotg, hpin⟩ := hcond
      rw [List.mem_filter]
      refine ⟨hxs, ?_⟩
      rw [Bool.and_eq_true, decide_eq_true_iff]
      refine ⟨?_, hpin⟩
      rw [List.mem_append]
      rintro (hmem | hmem)
      · exact hnotg (List.mem_filter.mpr ⟨hxs, hacc x hmem⟩)
      · exact hnotg hmem
    · right
      refine ih _ f x hf (fun z hz => ?_) hx
      rcases List.mem_append.mp hz with hz | hz
      · exact hacc z hz
      · exact (List.mem_filter.mp hz).2

/-- Each accumulated production package is also an accumulated pypi package. -/
theorem productionPackages_subset_pypiPackages (fs : List ReqFile) :
    productionPackages fs ⊆ pypiPackages fs := by
  intro x hx
  rw [productionPackages, List.mem_flatMap] at hx
  obtain ⟨f, hf, hx⟩ := hx
  exact mem_harvest_pypi (requirementFiles fs) [] f x
    (productionFiles_subset_requirementFiles fs hf) (by intro y hy; simp at hy) hx

/-- C3: for every repository with a `requirements/` directory, the Python
reader's output satisfies `pypi.count ≤ pypi_all.count`: the deduplicated
production set is a subset of the deduplicated all-pinned set. -/
theorem c3_pypi_count_le_pypi_all_count (fs : List ReqFile) :
    (pythonRead fs).pypi.count ≤ (pythonRead fs).pypi_all.count := by
  show (productionPackages fs).dedup.dedup.length ≤ (pypiPackages fs).dedup.dedup.length
  rw [List.dedup_idem, List.dedup_idem]
  exact dedup_length_le_of_subset (productionPackages_subset_pypiPackages fs)

/-- C1 fails as stated: the `github` sub-group serializes the raw
accumulated list (`json.dumps(github_packages)`), so a `git+` line that
occurs twice yields a serialized list with a duplicate identifier. -/
theorem c1_counterexample :
    (pythonRead [ReqFile.mk "requirements/base.txt" ["git+a", "git+a"]]).github.list
        = ["git+a", "git+a"]
    ∧ ¬ (pythonRead [ReqFile.mk "requirements/base.txt" ["git+a", "git+a"]]).github.list.Nodup := by
  decide

/-- C1 (amended): in every emitted dependency summary, each sub-group's
count equals the number of distinct identifiers in its serialized list; the
lists of `pypi_all`, `pypi`, `js`, `js.dev` and `js.all` are duplicate-free,
but the `github` list is the raw accumulation and may contain duplicates. -/
theorem c1_counts_and_dedup (fs : List ReqFile) (pj : PackageJson)
    (lock : Option (List (String × String)))
    (hdep : (pj.dependencies.map Prod.fst).Nodup)
    (hdev : (pj.devDependencies.map Prod.fst).Nodup)
    (hlock : ∀ d, lock = some d → (d.map Prod.fst).Nodup) :
    ((pythonRead fs).github.count = (pythonRead fs).github.list.dedup.length
      ∧ (pythonRead fs).pypi_all.list.Nodup
      ∧ (pythonRead fs).pypi_all.count = (pythonRead fs).pypi_all.list.dedup.length
      ∧ (pythonRead fs).pypi.list.Nodup
      ∧ (pythonRead fs).pypi.count = (pythonRead fs).pypi.list.dedup.length)
    ∧ ((jsRead pj lock).js.list.Nodup
      ∧ (jsRead pj lock).js.count = (jsRead pj lock).js.list.dedup.length
      ∧ (jsRead pj lock).jsDev.list.Nodup
      ∧ (jsRead pj lock).jsDev.count = (jsRead pj lock).jsDev.list.dedup.length
      ∧ (jsRead pj lock).jsAll.list.Nodup
      ∧ (jsRead pj lock).jsAll.count = (jsRead pj lock).jsAll.list.dedup.length) := by
  constructor
  · refine ⟨?_, List.nodup_dedup _, ?_, List.nodup_dedup _, ?_⟩
    · show (githubPackages fs).dedup.dedup.length = (githubPackages fs).dedup.length
      rw [List.dedup_idem]
    · show (pypiPackages fs).dedup.dedup.length = (pypiPackages fs).dedup.dedup.length
      rfl
    · show (productionPackages fs).dedup.dedup.length
        = (productionPackages fs).dedup.dedup.length
      rfl
  · cases lock with
    | none =>
      refine ⟨hdep, ?_, hdev, ?_, by simp [jsRead], by simp [jsRead]⟩
      · show pj.dependencies.length = (pj.dependencies.map Prod.fst).dedup.length
        rw [hdep.dedup, List.length_map]
      · show pj.devDependencies.length = (pj.devDependencies.map Prod.fst).dedup.length
        rw [hdev.dedup, List.length_map]
    | some d =>
      have hd := hlock d rfl
      refine ⟨hdep, ?_, hdev, ?_, hd, ?_⟩
      · show pj.dependencies.length = (pj.dependencies.map Prod.fst).dedup.length
        rw [hdep.dedup, List.length_map]
      · show pj.devDependencies.length = (pj.devDependencies.map Prod.fst).dedup.length
        rw [hdev.dedup, List.length_map]
      · show d.length = (d.map Prod.fst).dedup.length
        rw [hd.dedup, List.length_map]

theorem c1_counts_and_dedup_witness :
    (pythonRead []).pypi_all.list.Nodup
    ∧ (jsRead ⟨[("a", "1")], [("b", "2")]⟩ (some [("c", "3")])).jsAll.list.Nodup :=
  ⟨(c1_counts_and_dedup [] ⟨[("a", "1")], [("b", "2")]⟩ (some [("c", "3")])
      (by decide) (by decide) (by intro d h; injection h with h; subst h; decide)).1.2.1,
   (c1_counts_and_dedup [] ⟨[("a", "1")], [("b", "2")]⟩ (some [("c", "3")])
      (by decide) (by decide) (by intro d h; injection h with h; subst h; decide)).2.2.2.2.2.1⟩

/-- Follows the claim's words for C2: the exact file name of a path, the
part after the last `/`. -/
def baseName (p : String) : String :=
  ⟨(p.data.reverse.takeWhile (fun c => !(c == '/'))).reverse⟩

/-- C2 fails as stated: the source selects files with `str.endswith`, not
by exact file name.  Here no file's exact name appears in the priority
list, yet the production subset is not empty (the reader picks
`requirements/rebase.txt` because its path ends with `base.txt`). -/
theorem c2_counterexample :
    (∀ n ∈ priority_list, ∀ f ∈ [ReqFile.mk "requirements/rebase.txt" ["pkg==1.0"]],
        baseName f.path ≠ n)
    ∧ (pythonRead [ReqFile.mk "requirements/rebase.txt" ["pkg==1.0"]]).pypi
        = ⟨1, ["pkg==1.0"]⟩ := by
  decide

/-- C2 (amended): the production subset is selected by *path suffix*: the
reader takes the first name in the priority order for which at least one
file path ends with that name, and uses all files whose path ends with it;
if no path ends with any of the four names, the production subset is empty
(count `0`, empty list) and the read still returns a full summary. -/
theorem c2_production_file_selection (fs : List ReqFile) :
    ((fs.any (fun f => strEnds f.path "production.txt")) = true →
      productionFiles fs = fs.filter (fun f => strEnds f.path "production.txt"))
    ∧ ((fs.any (fun f => strEnds f.path "production.txt")) = false →
       (fs.any (fun f => strEnds f.path "base.txt")) = true →
      productionFiles fs = fs.filter (fun f => strEnds f.path "base.txt"))
    ∧ ((fs.any (fun f => strEnds f.path "production.txt")) = false →
       (fs.any (fun f => strEnds f.path "base.txt")) = false →
       (fs.any (fun f => strEnds f.path "development.txt")) = true →
      productionFiles fs = fs.filter (fun f => strEnds f.path "development.txt"))
    ∧ ((fs.any (fun f => strEnds f.path "production.txt")) = false →
       (fs.any (fun f => strEnds f.path "base.txt")) = false →
       (fs.any (fun f => strEnds f.path "development.txt")) = false →
       (fs.any (fun f => strEnds f.path "dev.txt")) = true →
      productionFiles fs = fs.filter (fun f => strEnds f.path "dev.txt"))
    ∧ ((∀ n ∈ priority_list, (fs.any (fun f => strEnds f.path n)) = false) →
      productionFiles fs = [] ∧ (pythonRead fs).pypi = ⟨0, []⟩) := by
  refine ⟨?_, ?_, ?_, ?_, ?_⟩
  · intro h1
    simp [productionFiles, priority_list, List.find?, h1]
  · intro h1 h2
    simp [productionFiles, priority_list, List.find?, h1, h2]
  · intro h1 h2 h3
    simp [productionFiles, priority_list, List.find?, h1, h2, h3]
  · intro h1 h2 h3 h4
    simp [productionFiles, priority_list, List.find?, h1, h2, h3, h4]
  · intro h
    have h1 := h "production.txt" (by simp [priority_list])
    have h2 := h "base.txt" (by simp [priority_list])
    have h3 := h "development.txt" (by simp [priority_list])
    have h4 := h "dev.txt" (by simp [priority_list])
    have hsel : productionFiles fs = [] := by
      simp [productionFiles, priority_list, List.find?, h1, h2, h3, h4]
    refine ⟨hsel, ?_⟩
    have hprod : productionPackages fs = [] := by
      rw [productionPackages, hsel]; rfl
    show SubGroup.mk (productionPackages fs).dedup.dedup.length (productionPackages fs).dedup = _
    rw [hprod]
    rfl

theorem c2_production_file_selection_witness :
    productionFiles [ReqFile.mk "requirements/base.txt" []]
      = [ReqFile.mk "requirements/base.txt" []] := by
  have h := (c2_production_file_selection [ReqFile.mk "requirements/base.txt" []]).2.1
    (by decide) (by decide)
  rw [h]
  decide

/-- Follows the claim's words for C4: Python's `\s` character class. -/
def pyWhitespace (c : Char) : Bool :=
  c == ' ' || c == '\t' || c == '\n' || c == '\x0b' || c == '\x0c' || c == '\r'

/-- Follows the claim's words for C4: a line matching the Python regular
expression `^\s*#` (a `#` preceded only by whitespace). -/
def wsComment (l : String) : Bool :=
  (l.data.dropWhile pyWhitespace).head? == some '#'

/-- What the source actually excludes: a `#` preceded only by *space*
characters (`line.startswith("#")` plus the `' +#.*'` substitution). -/
def spaceComment (l : String) : Bool :=
  (l.data.dropWhile (fun c => c = ' ')).head? == some '#'

/-- C4 fails as stated: a comment line whose leading whitespace is a tab
matches `^\s*#` but is excluded neither by `line.startswith("#")` nor by
`re.sub(r' +#.*', "", line)` (which only matches spaces), so when it
contains `==` it contributes an identifier to `pypi_all` and `pypi`. -/
theorem c4_counterexample :
    wsComment "\t# foo==1.0" = true
    ∧ (pythonRead [ReqFile.mk "requirements/base.txt" ["\t# foo==1.0"]]).pypi_all
        = ⟨1, ["\t# foo==1.0"]⟩
    ∧ (pythonRead [ReqFile.mk "requirements/base.txt" ["\t# foo==1.0"]]).pypi
        = ⟨1, ["\t# foo==1.0"]⟩ := by
  decide

theorem isPinned_empty : isPinned "" = false := by decide

theorem isGitLine_empty : isGitLine "" = false := by decide


/-- A line the source keeps (non-blank, not starting with `#`) whose first
`#` is preceded only by spaces strips to the empty string. -/
theorem stripLine_of_spaceComment {a : String}
    (hns : strStarts a "#" = false) (hsc : spaceComment a = true) :
    stripLine a = "" := by
  rcases hld : a.data with _ | ⟨c, cs⟩
  · rw [spaceComment, hld] at hsc
    simp at hsc
  · by_cases hc : c = ' '
    · subst hc
      have hh : (cs.dropWhile (fun x => x = ' ')).head? = some '#' := by
        rw [spaceComment, hld, List.dropWhile_cons] at hsc
        simpa using hsc
      simp only [stripLine]
      rw [hld, stripInlineComment, if_pos ⟨rfl, hh⟩]
      rfl
    · exfalso
      rw [spaceComment, hld, List.dropWhile_cons] at hsc
      rw [if_neg (by simpa using hc)] at hsc
      simp at hsc
      subst hsc
      rw [strStarts, hld, show ("#" : String).data = ['#'] from rfl,
        List.isPrefixOf] at hns
      simp at hns

/-- Dropping the lines the source treats as comments or blanks (empty, or a
`#` preceded only by spaces) does not change any filtered view of the
stripped lines, for any predicate rejecting the empty string. -/
theorem strippedLines_filter_invariant (P : String → Bool) (hP : P "" = false)
    (lines : List String) :
    (strippedLines (lines.filter (fun l => !(l == "" || spaceComment l)))).filter P
      = (strippedLines lines).filter P := by
  rw [strippedLines, strippedLines, List.filter_map, List.filter_map,
    List.filter_filter, List.filter_filter, List.filter_filter]
  refine congrArg _ (List.filter_congr fun a _ => ?_)
  by_cases hq : (!(a == "") && !(strStarts a "#")) = true
  · simp only [Bool.and_eq_true, Bool.not_eq_true'] at hq
    obtain ⟨hq1, hq2⟩ := hq
    by_cases hp : P (stripLine a) = true
    · have hsc : spaceComment a = false := by
        cases hh : spaceComment a
        · rfl
        · exfalso
          rw [stripLine_of_spaceComment hq2 hh, hP] at hp
          exact Bool.false_ne_true hp
      simp [Function.comp, hp, hq1, hq2, hsc]
    · have hp' : P (stripLine a) = false := by simpa using hp
      simp [Function.comp, hp']
  · have hq' : (!(a == "") && !(strStarts a "#")) = false := by simpa using hq
    simp only [Bool.and_eq_false_iff] at hq'
    rcases hq' with hq' | hq' <;> simp [Function.comp, hq']

/-- Deleting from a requirement file every line the claim describes: blank
lines and comment lines whose `#` is preceded only by spaces. -/
def dropCommentLines (f : ReqFile) : ReqFile :=
  ReqFile.mk f.path (f.lines.filter (fun l => !(l == "" || spaceComment l)))

/-- The comment/blank filter commutes out of `harvest`. -/
theorem harvest_filter_invariant : ∀ (files : List ReqFile) (gAcc : List String),
    harvest gAcc (files.map dropCommentLines) = harvest gAcc files := by
  intro files
  induction files with
  | nil => intro gAcc; rfl
  | cons f rest ih =>
    intro gAcc
    have hg : (strippedLines (f.lines.filter (fun l => !(l == "" || spaceComment l)))).filter isGitLine
        = (strippedLines f.lines).filter isGitLine :=
      strippedLines_filter_invariant isGitLine isGitLine_empty f.lines
    simp only [List.map_cons, harvest, dropCommentLines, hg]
    rw [strippedLines_filter_invariant
      (fun l => decide (l ∉ gAcc ++ (strippedLines f.lines).filter isGitLine) && isPinned l)
      (by simp [isPinned_empty])]
    rw [ih]

/-- The comment/blank filter commutes with the constraints-file exclusion. -/
theorem requirementFiles_map_drop (fs : List ReqFile) :
    requirementFiles (fs.map dropCommentLines)
      = (requirementFiles fs).map dropCommentLines := by
  rw [requirementFiles, requirementFiles, List.filter_map]
  exact congrArg _ (List.filter_congr fun a _ => rfl)

/-- The comment/blank filter commutes with production-file selection. -/
theorem productionFiles_map_drop (fs : List ReqFile) :
    productionFiles (fs.map dropCommentLines)
      = (productionFiles fs).map dropCommentLines := by
  have hpred : (fun n => (fs.map dropCommentLines).any (fun f => strEnds f.path n))
      = (fun n => fs.any (fun f => strEnds f.path n)) := by
    funext n
    rw [List.any_map]
    rfl
  rw [productionFiles, productionFiles, hpred]
  cases priority_list.find? (fun n => fs.any fun f => strEnds f.path n) with
  | none => rfl
  | some n =>
    show (fs.map dropCommentLines).filter (fun f => strEnds f.path n)
        = ((fs.filter (fun f => strEnds f.path n)).map dropCommentLines)
    rw [List.filter_map]
    exact congrArg _ (List.filter_congr fun a _ => rfl)

/-- The comment/blank filter does not change the pypi lines of a file. -/
theorem cleanup_lines_filter_invariant (lines : List String) :
    (cleanup_lines (lines.filter (fun l => !(l == "" || spaceComment l)))).2
      = (cleanup_lines lines).2 := by
  simp only [cleanup_lines]
  rw [strippedLines_filter_invariant isGitLine isGitLine_empty]
  exact strippedLines_filter_invariant _ (by simp [isPinned_empty]) lines

/-- The comment/blank filter does not change the production packages. -/
theorem productionPackages_filter_invariant (fs : List ReqFile) :
    productionPackages (fs.map dropCommentLines) = productionPackages fs := by
  rw [productionPackages, productionPackages, productionFiles_map_drop]
  induction productionFiles fs with
  | nil => rfl
  | cons f rest ih =>
    simp only [List.map_cons, List.flatMap_cons]
    rw [ih]
    show (cleanup_lines (f.lines.filter (fun l => !(l == "" || spaceComment l)))).2 ++ _ = _
    rw [cleanup_lines_filter_invariant]

/-- C4 (amended): lines that are blank, start with `#`, or have their `#`
preceded only by *space* characters contribute no identifier to any
produced set — deleting all of them from every file leaves the reader's
entire output unchanged.  (A comment preceded by a tab is *not* excluded;
see the counterexample.) -/
theorem c4_comment_lines_invariant (fs : List ReqFile) :
    pythonRead (fs.map dropCommentLines) = pythonRead fs := by
  have h1 : githubPackages (fs.map dropCommentLines) = githubPackages fs := by
    rw [githubPackages, githubPackages, requirementFiles_map_drop,
      harvest_filter_invariant]
  have h2 : pypiPackages (fs.map dropCommentLines) = pypiPackages fs := by
    rw [pypiPackages, pypiPackages, requirementFiles_map_drop,
      harvest_filter_invariant]
  simp only [pythonRead]
  rw [h1, h2, productionPackages_filter_invariant]

/-- C5 fails as stated: a lockfile may be present yet list fewer packages
than the manifest (here an empty `dependencies` object), in which case
`js.all.count < js.count`. -/
theorem c5_counterexample :
    ¬ ((jsRead ⟨[("a", "1.0")], []⟩ (some [])).jsAll.count
        ≥ (jsRead ⟨[("a", "1.0")], []⟩ (some [])).js.count) := by
  decide

/-- C5 (amended): `js.all.count` is exactly the number of packages in the
lockfile's `dependencies` object, and `0` when the lockfile is absent (not
an error); `js.all.count ≥ js.count` holds under the additional assumption
that every manifest dependency name also appears in the lockfile. -/
theorem c5_js_all_count (pj : PackageJson) (lock : Option (List (String × String))) :
    (lock = none → (jsRead pj lock).jsAll = ⟨0, []⟩)
    ∧ (∀ d, lock = some d →
        (jsRead pj lock).jsAll.count = d.length
        ∧ (jsRead pj lock).jsAll.list = d.map Prod.fst)
    ∧ (∀ d, lock = some d → (pj.dependencies.map Prod.fst).Nodup →
        (∀ k ∈ pj.dependencies.map Prod.fst, k ∈ d.map Prod.fst) →
        (jsRead pj lock).js.count ≤ (jsRead pj lock).jsAll.count) := by
  refine ⟨?_, ?_, ?_⟩
  · rintro rfl
    rfl
  · rintro d rfl
    exact ⟨rfl, rfl⟩
  · rintro d rfl hnd hsub
    show pj.dependencies.length ≤ d.length
    have h1 : pj.dependencies.length = (pj.dependencies.map Prod.fst).dedup.length := by
      rw [hnd.dedup, List.length_map]
    have h2 : (pj.dependencies.map Prod.fst).dedup.length
        ≤ (d.map Prod.fst).dedup.length := dedup_length_le_of_subset hsub
    have h3 : (d.map Prod.fst).dedup.length ≤ (d.map Prod.fst).length :=
      (List.dedup_sublist _).length_le
    rw [h1, ← List.length_map d Prod.fst]
    exact le_trans h2 h3

theorem c5_js_all_count_witness :
    (jsRead ⟨[("a", "1.0")], []⟩ (some [("a", "1.0"), ("b", "2.0")])).js.count
      ≤ (jsRead ⟨[("a", "1.0")], []⟩ (some [("a", "1.0"), ("b", "2.0")])).jsAll.count :=
  (c5_js_all_count ⟨[("a", "1.0")], []⟩ (some [("a", "1.0"), ("b", "2.0")])).2.2
    [("a", "1.0"), ("b", "2.0")] rfl (by decide) (by decide)

/-! ## Lemmas on dict update and the aggregator -/

/-- Assignment can only add its own key to a dict's key list. -/
theorem mem_keys_dInsert {β : Type} (d : List (String × β)) (k k' : String) (v : β)
    (h : k ∈ d.map Prod.fst) : k ∈ (dInsert d k' v).map Prod.fst := by
  rw [dInsert]
  by_cases hc : d.any (fun p => p.1 == k') = true
  · rw [if_pos hc, List.map_map]
    obtain ⟨p, hp, hpk⟩ := List.mem_map.mp h
    refine List.mem_map.mpr ⟨p, hp, ?_⟩
    by_cases hk : p.1 == k'
    · simp only [Function.comp, hk, if_pos rfl]
      subst hpk
      exact (beq_iff_eq.mp hk).symm ▸ rfl
    · simp only [Function.comp, hk]
      simpa using hpk
  · rw [if_neg hc, List.map_append]
    exact List.mem_append_left _ h

/-- Update can only add keys. -/
theorem mem_keys_dUpdate {β : Type} (u d : List (String × β)) (k : String)
    (h : k ∈ d.map Prod.fst) : k ∈ (dUpdate d u).map Prod.fst := by
  induction u generalizing d with
  | nil => exact h
  | cons p rest ih =>
    exact ih (dInsert d p.1 p.2) (mem_keys_dInsert d k p.1 p.2 h)

/-- One reader step of the aggregation loop can only add keys. -/
theorem mem_keys_applyReader (st : List (String × Val) × Nat)
    (res : List (String × Val)) (k : String) (h : k ∈ st.1.map Prod.fst) :
    k ∈ (applyReader st res).1.map Prod.fst := by
  rw [applyReader]
  by_cases he : res.isEmpty
  · rw [if_pos he]; exact h
  · rw [if_neg he]
    exact mem_keys_dInsert _ k _ _ (mem_keys_dUpdate res st.1 k h)

/-- C6: the aggregator's output always contains every key of the default
schema, and a repository with neither `requirements/` nor `package.json`
yields exactly the all-zero default schema. -/
theorem c6_default_schema_preserved (r : Repo) :
    (∀ k ∈ default_output.map Prod.fst, k ∈ (get_dependencies r).map Prod.fst)
    ∧ (r.requirements = none → r.packageJson = none →
        get_dependencies r = default_output) := by
  constructor
  · intro k hk
    rw [get_dependencies]
    exact mem_keys_applyReader _ _ k (mem_keys_applyReader _ _ k hk)
  · intro h1 h2
    rw [get_dependencies, jsReaderResult, pyReaderResult, h1, h2]
    rfl

theorem c6_default_schema_preserved_witness :
    get_dependencies ⟨none, none, none⟩ = default_output :=
  (c6_default_schema_preserved ⟨none, none, none⟩).2 rfl rfl

/-! ## Lemmas on metadata flattening -/

/-- Follows the claim's words for C7: `p` is a path of nested keys from the
top of the mapping down to a leaf value `v` (any non-mapping value,
sequences included). -/
inductive IsLeafPath : List (String × JVal) → List String → JVal → Prop where
  | leaf {m : List (String × JVal)} {k : String} {v : JVal} :
      (k, v) ∈ m → (∀ o, v ≠ JVal.obj o) → IsLeafPath m [k] v
  | nest {m : List (String × JVal)} {k : String} {o : List (String × JVal)}
      {p : List String} {v : JVal} :
      (k, JVal.obj o) ∈ m → IsLeafPath o p v → IsLeafPath m (k :: p) v

/-- Key paths joined with the default delimiter `.` at every level. -/
def joinDot : List String → String
  | [] => ""
  | [k] => k
  | k :: p => k ++ "." ++ joinDot p

/-- Key paths as the code produces them: the top level joined with the
*passed* delimiter, every deeper level with the default `.` (the recursive
call in the source omits the delimiter argument). -/
def joinD (d : String) : List String → String
  | [] => ""
  | [k] => k
  | k :: p => k ++ d ++ joinDot p

theorem joinD_dot : ∀ p, joinD "." p = joinDot p
  | [] => rfl
  | [_] => rfl
  | _ :: _ :: _ => rfl

theorem IsLeafPath.ne_nil {m : List (String × JVal)} {p : List String} {v : JVal}
    (h : IsLeafPath m p v) : p ≠ [] := by
  cases h <;> simp

theorem mem_squashPairs {m : List (String × JVal)} {d : String} {x : String × JVal} :
    x ∈ squashPairs m d ↔ ∃ kv ∈ m, x ∈ squashEntry kv.1 kv.2 d := by
  induction m with
  | nil => simp [squashPairs]
  | cons kv rest ih =>
    obtain ⟨k, v⟩ := kv
    rw [show squashPairs ((k, v) :: rest) d = squashEntry k v d ++ squashPairs rest d
      from rfl]
    rw [List.mem_append, ih]
    constructor
    · rintro (h | ⟨kv, hm, hx⟩)
      · exact ⟨(k, v), List.mem_cons_self _ _, h⟩
      · exact ⟨kv, List.mem_cons_of_mem _ hm, hx⟩
    · rintro ⟨kv, hm, hx⟩
      rcases List.mem_cons.mp hm with rfl | hm
      · exact Or.inl hx
      · exact Or.inr ⟨kv, hm, hx⟩

theorem squashEntry_of_ne_obj {k : String} {v : JVal} {d : String}
    (h : ∀ o, v ≠ JVal.obj o) : squashEntry k v d = [(k, v)] := by
  cases v with
  | obj o => exact absurd rfl (h o)
  | null => rfl
  | str s => rfl
  | num n => rfl
  | arr a => rfl

theorem sizeOf_obj_lt {m : List (String × JVal)} {k : String}
    {o : List (String × JVal)} (h : (k, JVal.obj o) ∈ m) : sizeOf o < sizeOf m := by
  have h1 := List.sizeOf_lt_of_mem h
  simp only [Prod.mk.sizeOf_spec, JVal.obj.sizeOf_spec] at h1
  omega

theorem mem_squashPairs_iff_leafPath : ∀ (N : Nat) (m : List (String × JVal)),
    sizeOf m ≤ N → ∀ (d k : String) (v : JVal),
    ((k, v) ∈ squashPairs m d ↔ ∃ p, IsLeafPath m p v ∧ k = joinD d p) := by
  intro N
  induction N with
  | zero =>
    intro m hm
    exfalso
    cases m with
    | nil => simp at hm
    | cons p t => simp at hm
  | succ N ih =>
    intro m hm d k v
    constructor
    · intro hmem
      obtain ⟨kv, hkv, hent⟩ := mem_squashPairs.mp hmem
      obtain ⟨k0, v0⟩ := kv
      by_cases hobj : ∃ o, v0 = JVal.obj o
      · obtain ⟨o, rfl⟩ := hobj
        rw [show squashEntry k0 (JVal.obj o) d
            = (squashPairs o ".").map (fun q => (k0 ++ d ++ q.1, q.2)) from rfl] at hent
        obtain ⟨q, hq, heq⟩ := List.mem_map.mp hent
        obtain ⟨q1, q2⟩ := q
        injection heq with heqk heqv
        subst heqv
        have hso : sizeOf o ≤ N := by
          have := sizeOf_obj_lt hkv
          omega
        obtain ⟨p', hp', hk'⟩ := (ih o hso "." q1 _).mp hq
        refine ⟨k0 :: p', IsLeafPath.nest hkv hp', ?_⟩
        cases p' with
        | nil => exact absurd rfl hp'.ne_nil
        | cons a t =>
          rw [← heqk, hk', joinD_dot]
          rfl
      · have hne : ∀ o, v0 ≠ JVal.obj o := fun o h => hobj ⟨o, h⟩
        rw [squashEntry_of_ne_obj hne, List.mem_singleton, Prod.mk.injEq] at hent
        obtain ⟨rfl, rfl⟩ := hent
        exact ⟨[k], IsLeafPath.leaf hkv hne, rfl⟩
    · rintro ⟨p, hp, rfl⟩
      cases hp with
      | @leaf _ k0 _ hkv hne =>
        apply mem_squashPairs.mpr
        exact ⟨(k0, v), hkv, by
          rw [squashEntry_of_ne_obj hne]
          exact List.mem_singleton.mpr rfl⟩
      | @nest _ k0 o p' _ hkv hp' =>
        apply mem_squashPairs.mpr
        refine ⟨(k0, JVal.obj o), hkv, ?_⟩
        have hso : sizeOf o ≤ N := by
          have := sizeOf_obj_lt hkv
          omega
        have hq : (joinD "." p', v) ∈ squashPairs o "." :=
          (ih o hso "." _ v).mpr ⟨p', hp', rfl⟩
        show _ ∈ (squashPairs o ".").map (fun q => (k0 ++ d ++ q.1, q.2))
        refine List.mem_map.mpr ⟨(joinD "." p', v), hq, ?_⟩
        cases p' with
        | nil => exact absurd rfl hp'.ne_nil
        | cons a t =>
          rw [joinD_dot]
          rfl

theorem mem_keys_dInsert_iff {β : Type} (d : List (String × β)) (k k' : String) (v : β) :
    k ∈ (dInsert d k' v).map Prod.fst ↔ k ∈ d.map Prod.fst ∨ k = k' := by
  rw [dInsert]
  by_cases hc : d.any (fun p => p.1 == k') = true
  · rw [if_pos hc, List.map_map]
    have hmapeq : (Prod.fst ∘ fun p : String × β => if p.1 == k' then (k', v) else p)
        = Prod.fst := by
      funext p
      by_cases hk : (p.1 == k') = true
      · simp [Function.comp, hk, (beq_iff_eq.mp hk).symm]
      · simp [Function.comp, hk]
    rw [hmapeq]
    constructor
    · exact Or.inl
    · rintro (h | rfl)
      · exact h
      · obtain ⟨p, hp, hpk⟩ := List.any_eq_true.mp hc
        exact List.mem_map.mpr ⟨p, hp, beq_iff_eq.mp hpk⟩
  · rw [if_neg hc, List.map_append]
    simp [List.mem_append]

theorem mem_keys_dUpdate_iff {β : Type} (u d : List (String × β)) (k : String) :
    k ∈ (dUpdate d u).map Prod.fst ↔ k ∈ d.map Prod.fst ∨ k ∈ u.map Prod.fst := by
  induction u generalizing d with
  | nil => simp [dUpdate]
  | cons p rest ih =>
    show k ∈ (dUpdate (dInsert d p.1 p.2) rest).map Prod.fst ↔ _
    rw [ih, mem_keys_dInsert_iff]
    simp [List.mem_cons, or_assoc]

theorem mem_keys_dictNorm {β : Type} (l : List (String × β)) (k : String) :
    k ∈ (dictNorm l).map Prod.fst ↔ k ∈ l.map Prod.fst := by
  rw [dictNorm, mem_keys_dUpdate_iff]
  simp

/-- C7 fails as stated: with delimiter `/`, a leaf two levels deep gets the
key `a/b.c`, not `a/b/c` — only the top level is joined with the passed
delimiter, deeper levels use the default `.`. -/
theorem c7_counterexample :
    (squash_dict [("a", JVal.obj [("b", JVal.obj [("c", JVal.num 1)])])] "/").map Prod.fst
        = ["a/b.c"]
    ∧ "a/b/c" ∉ (squash_dict [("a", JVal.obj [("b", JVal.obj [("c", JVal.num 1)])])] "/").map
        Prod.fst := by
  decide

/-- C7 (amended): `squash_dict` descends only into nested mapping values
(sequences stay leaves), and the output keys are exactly the nested key
paths to leaves, with the top level joined by the passed delimiter and all
deeper levels joined by the default `.`. -/
theorem c7_flatten_key_characterization (input : List (String × JVal)) (d key : String) :
    key ∈ (squash_dict input d).map Prod.fst
      ↔ ∃ p v, IsLeafPath input p v ∧ key = joinD d p := by
  rw [squash_dict, mem_keys_dictNorm]
  constructor
  · intro h
    obtain ⟨pr, hpr, hk⟩ := List.mem_map.mp h
    obtain ⟨k1, v1⟩ := pr
    have hk' : k1 = key := hk
    subst hk'
    obtain ⟨p, hp, hj⟩ :=
      (mem_squashPairs_iff_leafPath (sizeOf input) input le_rfl d _ v1).mp hpr
    exact ⟨p, v1, hp, hj⟩
  · rintro ⟨p, v, hp, rfl⟩
    have hmem := (mem_squashPairs_iff_leafPath (sizeOf input) input le_rfl d _ v).mpr
      ⟨p, hp, rfl⟩
    exact List.mem_map.mpr ⟨(joinD d p, v), hmem, rfl⟩

/-! ## Lemmas on standardization and the report writer -/

/-- Assigning an existing key leaves the key list unchanged. -/
theorem dInsert_keys_of_mem {β : Type} (d : List (String × β)) (k : String) (v : β)
    (h : k ∈ d.map Prod.fst) : (dInsert d k v).map Prod.fst = d.map Prod.fst := by
  rw [dInsert]
  have hc : d.any (fun q => q.1 == k) = true := by
    obtain ⟨q, hq, hqk⟩ := List.mem_map.mp h
    exact List.any_eq_true.mpr ⟨q, hq, beq_iff_eq.mpr hqk⟩
  rw [if_pos hc, List.map_map]
  have hmapeq : (Prod.fst ∘ fun p : String × β => if p.1 == k then (k, v) else p)
      = Prod.fst := by
    funext p
    by_cases hk : (p.1 == k) = true
    · simp [Function.comp, hk, (beq_iff_eq.mp hk).symm]
    · simp [Function.comp, hk]
  rw [hmapeq]

/-- Updating with keys that all already exist preserves the key list. -/
theorem dUpdate_keys_of_subset {β : Type} (u d : List (String × β))
    (h : ∀ x ∈ u, x.1 ∈ d.map Prod.fst) :
    (dUpdate d u).map Prod.fst = d.map Prod.fst := by
  induction u generalizing d with
  | nil => rfl
  | cons p rest ih =>
    show (dUpdate (dInsert d p.1 p.2) rest).map Prod.fst = _
    have hins : (dInsert d p.1 p.2).map Prod.fst = d.map Prod.fst :=
      dInsert_keys_of_mem d p.1 p.2 (h p (List.mem_cons_self _ _))
    rw [ih _ (fun x hx => by
      rw [hins]
      exact h x (List.mem_cons_of_mem _ hx)), hins]

/-- A pair survives an update whose keys all differ from its own. -/
theorem mem_dUpdate_of_not_key {β : Type} (u d : List (String × β)) (k : String)
    (v : β) (hd : (k, v) ∈ d) (hu : ∀ x ∈ u, x.1 ≠ k) : (k, v) ∈ dUpdate d u := by
  induction u generalizing d with
  | nil => exact hd
  | cons p rest ih =>
    refine ih _ ?_ (fun x hx => hu x (List.mem_cons_of_mem _ hx))
    simp only [dInsert]
    by_cases hc : d.any (fun q => q.1 == p.1) = true
    · rw [if_pos hc]
      refine List.mem_map.mpr ⟨(k, v), hd, ?_⟩
      have hne : ((k, v).1 == p.1) = false :=
        beq_eq_false_iff_ne.mpr (fun h => hu p (List.mem_cons_self _ _) h.symm)
      simp [hne]
    · rw [if_neg hc]
      exact List.mem_append_left _ hd

/-- Every key of a member mapping is in the key superset. -/
theorem mem_superset_of_mem_item (m : List (String × List (String × JVal)))
    (name : String) (item : List (String × JVal)) (k : String)
    (hm : (name, item) ∈ m) (hk : k ∈ item.map Prod.fst) :
    k ∈ get_superset_of_keys m := by
  rw [get_superset_of_keys, List.mem_dedup, List.mem_flatMap]
  exact ⟨(name, item), hm, hk⟩

/-- C8: every standardized mapping has the same number of keys, equal to the
cardinality of the union of all keys across the input mappings, and every
superset key missing from a repository's own mapping is filled with the
null placeholder. -/
theorem c8_standardize_equal_keys (m : List (String × List (String × JVal))) :
    (∀ p ∈ standardize_metadata_by_repo m,
        p.2.length = (get_superset_of_keys m).length)
    ∧ (∀ name item, (name, item) ∈ m →
        ∃ out, (name, out) ∈ standardize_metadata_by_repo m
          ∧ (∀ k ∈ get_superset_of_keys m, k ∉ item.map Prod.fst →
              (k, JVal.null) ∈ out)) := by
  have hdef : ((get_superset_of_keys m).map (fun k => (k, JVal.null))).map Prod.fst
      = get_superset_of_keys m := by
    rw [List.map_map]
    exact List.map_id _
  constructor
  · intro p hp
    simp only [standardize_metadata_by_repo] at hp
    obtain ⟨q, hq, rfl⟩ := List.mem_map.mp hp
    show (dUpdate ((get_superset_of_keys m).map (fun k => (k, JVal.null))) q.2).length = _
    have hkeys := dUpdate_keys_of_subset q.2
      ((get_superset_of_keys m).map (fun k => (k, JVal.null)))
      (fun x hx => by
        rw [hdef]
        exact mem_superset_of_mem_item m q.1 q.2 x.1 hq (List.mem_map.mpr ⟨x, hx, rfl⟩))
    rw [← List.length_map
      (dUpdate ((get_superset_of_keys m).map (fun k => (k, JVal.null))) q.2) Prod.fst,
      hkeys, hdef]
  · intro name item hm
    refine ⟨dUpdate ((get_superset_of_keys m).map (fun k => (k, JVal.null))) item,
      ?_, ?_⟩
    · simp only [standardize_metadata_by_repo]
      exact List.mem_map.mpr ⟨(name, item), hm, rfl⟩
    · intro k hk hknot
      refine mem_dUpdate_of_not_key item _ k JVal.null ?_ ?_
      · exact List.mem_map.mpr ⟨k, hk, rfl⟩
      · intro x hx hxk
        exact hknot (List.mem_map.mpr ⟨x, hx, hxk⟩)

theorem c8_standardize_equal_keys_witness :
    ∃ out, ("r1", out) ∈ standardize_metadata_by_repo
        [("r1", [("a", JVal.num 1)]), ("r2", [("b", JVal.num 2)])]
      ∧ (∀ k ∈ get_superset_of_keys
            [("r1", [("a", JVal.num 1)]), ("r2", [("b", JVal.num 2)])],
          k ∉ ([("a", JVal.num 1)] : List (String × JVal)).map Prod.fst →
          (k, JVal.null) ∈ out) :=
  (c8_standardize_equal_keys
      [("r1", [("a", JVal.num 1)]), ("r2", [("b", JVal.num 2)])]).2
    "r1" [("a", JVal.num 1)] (List.Mem.head _)

/-- C9: the column order is exactly `check_order` followed by the remaining
superset keys in sorted order, with `check_order` keys excluded from the
remainder, and no duplicate columns. -/
theorem c9_column_order (metadata : List (String × List (String × JVal)))
    (cfg : Configuration) (hord : cfg.check_order.Nodup) :
    (write_columns metadata cfg).Nodup
    ∧ ∃ rem, write_columns metadata cfg = cfg.check_order ++ rem
        ∧ List.Sorted (· ≤ ·) rem
        ∧ ∀ k, k ∈ rem ↔ (k ∈ get_superset_of_keys metadata ∧ k ∉ cfg.check_order) := by
  have hmem : ∀ k, k ∈ List.insertionSort (fun a b => a ≤ b)
        ((get_superset_of_keys metadata).filter (fun k => decide (k ∉ cfg.check_order)))
      ↔ (k ∈ get_superset_of_keys metadata ∧ k ∉ cfg.check_order) := by
    intro k
    rw [(List.perm_insertionSort _ _).mem_iff, List.mem_filter, decide_eq_true_iff]
  have hnodup_rem : (List.insertionSort (fun a b => a ≤ b)
      ((get_superset_of_keys metadata).filter (fun k => decide (k ∉ cfg.check_order)))).Nodup :=
    (List.perm_insertionSort _ _).nodup_iff.mpr ((List.nodup_dedup _).filter _)
  constructor
  · show (cfg.check_order ++ List.insertionSort (fun a b => a ≤ b)
      ((get_superset_of_keys metadata).filter (fun k => decide (k ∉ cfg.check_order)))).Nodup
    rw [List.nodup_append]
    exact ⟨hord, hnodup_rem, fun a ha hb => ((hmem a).mp hb).2 ha⟩
  · exact ⟨_, rfl, List.sorted_insertionSort _ _, hmem⟩

theorem c9_column_order_witness :
    (write_columns ([] : List (String × List (String × JVal)))
      (Configuration.mk ["b", "a"] [])).Nodup :=
  (c9_column_order [] (Configuration.mk ["b", "a"] []) (by decide)).1

theorem lookup_isSome_iff {β : Type} (item : List (String × β)) (k : String) :
    (item.lookup k).isSome = true ↔ k ∈ item.map Prod.fst := by
  induction item with
  | nil => simp [List.lookup]
  | cons p rest ih =>
    obtain ⟨k0, v0⟩ := p
    simp only [List.lookup]
    cases hbeq : (k == k0) with
    | true =>
      simp only [Option.isSome_some, true_iff]
      exact List.mem_map.mpr ⟨(k0, v0), List.mem_cons_self _ _, (beq_iff_eq.mp hbeq).symm⟩
    | false =>
      rw [ih]
      simp only [List.map_cons, List.mem_cons]
      constructor
      · exact Or.inr
      · rintro (h | h)
        · exact absurd (beq_iff_eq.mpr h) (by rw [hbeq]; exact Bool.false_ne_true)
        · exact h

theorem buildRow_isSome_iff (cols : List String) (item : List (String × JVal)) :
    (buildRow cols item).isSome = true ↔ ∀ k ∈ cols, k ∈ item.map Prod.fst := by
  induction cols with
  | nil => simp [buildRow]
  | cons k rest ih =>
    rw [buildRow]
    cases hl : item.lookup k with
    | none =>
      have hk : k ∉ item.map Prod.fst := by
        rw [← lookup_isSome_iff, hl]
        simp
      rw [Option.none_bind]
      simp only [Option.isSome_none, Bool.false_eq_true, false_iff, List.forall_mem_cons]
      exact fun h => hk h.1
    | some v =>
      have hk : k ∈ item.map Prod.fst := by
        rw [← lookup_isSome_iff, hl]
        rfl
      rw [Option.some_bind, Option.isSome_map', ih, List.forall_mem_cons]
      exact ⟨fun h => ⟨hk, h⟩, fun h => h.2⟩

theorem writeRowsAux_isSome_iff (cols : List String) :
    ∀ md : List (String × List (String × JVal)),
    (writeRowsAux cols md).isSome = true
      ↔ ∀ p ∈ md, ∀ k ∈ cols, k ∈ p.2.map Prod.fst := by
  intro md
  induction md with
  | nil => simp [writeRowsAux]
  | cons p rest ih =>
    rw [writeRowsAux]
    cases hb : buildRow cols p.2 with
    | none =>
      have hp : ¬ ∀ k ∈ cols, k ∈ p.2.map Prod.fst := by
        rw [← buildRow_isSome_iff, hb]
        simp
      rw [Option.none_bind]
      simp only [Option.isSome_none, Bool.false_eq_true, false_iff, List.forall_mem_cons]
      exact fun h => hp h.1
    | some r =>
      have hp : ∀ k ∈ cols, k ∈ p.2.map Prod.fst := by
        rw [← buildRow_isSome_iff, hb]
        rfl
      rw [Option.some_bind, Option.isSome_map', ih, List.forall_mem_cons]
      exact ⟨fun h => ⟨hp, h⟩, fun h => h.2⟩

/-- C10: writing the rows succeeds exactly when every `check_order` key is
present in every (standardized) repository mapping; a `check_order` key
absent from some repository's mapping makes the write fail (the modelled
`KeyError`) rather than render an empty field. -/
theorem c10_write_fails_iff_check_order_key_missing
    (metadata : List (String × List (String × JVal))) (cfg : Configuration)
    (hstd : ∀ p ∈ metadata, ∀ k ∈ get_superset_of_keys metadata,
      k ∈ p.2.map Prod.fst) :
    ((write_rows metadata cfg).isSome = true
      ↔ ∀ p ∈ metadata, ∀ k ∈ cfg.check_order, k ∈ p.2.map Prod.fst) := by
  rw [show write_rows metadata cfg
      = writeRowsAux (write_columns metadata cfg) metadata from rfl,
    writeRowsAux_isSome_iff]
  constructor
  · intro h p hp k hk
    exact h p hp k (List.mem_append_left _ hk)
  · intro h p hp k hk
    have hk' : k ∈ cfg.check_order ++ List.insertionSort (fun a b => a ≤ b)
        ((get_superset_of_keys metadata).filter (fun k => decide (k ∉ cfg.check_order))) := hk
    rcases List.mem_append.mp hk' with hk1 | hk2
    · exact h p hp k hk1
    · have hmem := ((List.perm_insertionSort _ _).mem_iff).mp hk2
      exact hstd p hp k (List.mem_filter.mp hmem).1

theorem c10_write_fails_iff_check_order_key_missing_witness :
    ¬ ((write_rows [("r", [("a", JVal.num 1)])] (Configuration.mk ["zzz"] [])).isSome
        = true) := by
  intro hs
  have h := (c10_write_fails_iff_check_order_key_missing
      [("r", [("a", JVal.num 1)])] (Configuration.mk ["zzz"] [])
      (by decide)).mp hs
  have h2 := h ("r", [("a", JVal.num 1)]) (List.Mem.head _) "zzz" (List.Mem.head _)
  revert h2
  decide
